import Mathlib

/-!
Shallow embedding of `ESH_manifold/Efficient_SH_with_manifold_ours.py`
(Efficient Spectral Hashing with manifold solvers).

Matrices are embedded as `Matrix (Fin _) (Fin _) ℚ` and all arithmetic is
exact.  The squared Frobenius norm `tf.norm(·, 'fro')**2` is embedded as the
sum of squared entries (the two agree exactly, since the radicand is
nonnegative).  The external collaborators of the core — the `normalize_Z`
utility, the autodiff engine producing `tape.gradient(cost, W)`, and the
`eigsh` eigensolver used for initialisation — are parameters of the
embedding (a matrix-valued function `normZ`, a gradient oracle `g`, and
eigenpair data respectively), exactly as the specification scopes them out.
`tf.linalg.inv` is embedded as `minv`, the adjugate-based inverse, which
coincides with the Mathlib matrix inverse `⁻¹` over ℚ.
-/

namespace ESH

open Matrix

/-- Elementwise absolute value, embedding `tf.math.abs`. -/
def matAbs {m n : ℕ} (M : Matrix (Fin m) (Fin n) ℚ) : Matrix (Fin m) (Fin n) ℚ :=
  Matrix.of fun i j => |M i j|

/-- The all-ones matrix: the scalar `1` that `tf.math.subtract` broadcasts. -/
def onesM {m n : ℕ} : Matrix (Fin m) (Fin n) ℚ :=
  Matrix.of fun _ _ => 1

/-- Squared Frobenius norm, embedding `tf.math.square(tf.norm(·, ord='fro'))`. -/
def frobSq {m n : ℕ} (M : Matrix (Fin m) (Fin n) ℚ) : ℚ :=
  ∑ i, ∑ j, M i j ^ 2

/-- Embedding of `get_feature_affinity` (lines 18-22): `A = L Lᵀ` with
`L = Xᵀ · normalize_Z(Z)`; the `normalize_Z` collaborator is the parameter
`normZ`. -/
def get_feature_affinity {n d m : ℕ}
    (normZ : Matrix (Fin n) (Fin m) ℚ → Matrix (Fin n) (Fin m) ℚ)
    (train_features : Matrix (Fin n) (Fin d) ℚ) (Z : Matrix (Fin n) (Fin m) ℚ) :
    Matrix (Fin d) (Fin d) ℚ :=
  let Zn := normZ Z
  let L := train_featuresᵀ * Zn
  L * Lᵀ

/-- Embedding of `cost_fn` (lines 34-41). -/
def cost_fn {n d K : ℕ} (train_features : Matrix (Fin n) (Fin d) ℚ)
    (W : Matrix (Fin d) (Fin K) ℚ) (Affinity : Matrix (Fin d) (Fin d) ℚ)
    (alpha : ℚ) : ℚ :=
  let main_cost := (-1 : ℚ) * Matrix.trace (Wᵀ * (Affinity * W))
  let projected_values := train_features * W
  let reg := frobSq (matAbs projected_values - onesM)
  (main_cost + (1/2 : ℚ) * alpha * reg) / (n : ℚ)

/-- Embedding of `grad_J` (lines 44-45). -/
def grad_J {d K : ℕ} (grad W : Matrix (Fin d) (Fin K) ℚ) :
    Matrix (Fin d) (Fin K) ℚ :=
  grad - W * gradᵀ * W

/-- Embedding of `compute_alpha` (lines 55-61). -/
def compute_alpha {n d K : ℕ} (train_features : Matrix (Fin n) (Fin d) ℚ)
    (W : Matrix (Fin d) (Fin K) ℚ) (Affinity : Matrix (Fin d) (Fin d) ℚ) : ℚ :=
  let main_cost := (-1 : ℚ) * Matrix.trace (Wᵀ * (Affinity * W))
  let projected_values := train_features * W
  let reg := frobSq (matAbs projected_values - onesM)
  |2 * main_cost / reg|

/-- Executable matrix inverse over ℚ (adjugate over determinant), embedding
`tf.linalg.inv`; it agrees with the Mathlib `⁻¹` (see `minv_eq_inv`). -/
def minv {d : ℕ} (A : Matrix (Fin d) (Fin d) ℚ) : Matrix (Fin d) (Fin d) ℚ :=
  A.det⁻¹ • A.adjugate

/-- The per-iteration mutable scalars/matrices of the solver loops: the
current point `W` and the current step size `lr`. -/
structure Core (d K : ℕ) where
  W : Matrix (Fin d) (Fin K) ℚ
  lr : ℚ

/-- Embedding of the Cayley update of one `ESH_manifold` iteration
(lines 99, 102-106): `F0 = grad Wᵀ`, `F = F0 - F0ᵀ`,
`Q = (I + lr·0.5·F)⁻¹ (I - lr·0.5·F)`, new `W = Q W`.  The gradient oracle
`g` stands for `tape.gradient(cost, W)` evaluated at the current `W`. -/
def cayley_W {d K : ℕ} (g : Matrix (Fin d) (Fin K) ℚ → Matrix (Fin d) (Fin K) ℚ)
    (s : Core d K) : Matrix (Fin d) (Fin K) ℚ :=
  let grad := g s.W
  let F0 := grad * s.Wᵀ
  let F := F0 - F0ᵀ
  let Q := minv (1 + (s.lr * (1/2)) • F) * (1 - (s.lr * (1/2)) • F)
  Q * s.W

/-- Numerator trace of the Barzilai-Borwein step-size update (lines 117-119):
`trace(M_itᵀ Y_it)` with `M_it = W - W_old` and
`Y_it = grad_J(grad, W) - grad_J(grad, W_old)`, where `W` is the post-update
point `cayley_W g s` and `grad = g W_old` is the single gradient computed at
the pre-update point (line 99). -/
def bb_num {d K : ℕ} (g : Matrix (Fin d) (Fin K) ℚ → Matrix (Fin d) (Fin K) ℚ)
    (s : Core d K) : ℚ :=
  let grad := g s.W
  let W := cayley_W g s
  let M_it := W - s.W
  let Y_it := grad_J grad W - grad_J grad s.W
  Matrix.trace (M_itᵀ * Y_it)

/-- Denominator trace `trace(Y_itᵀ Y_it)` of the step-size update (line 119). -/
def bb_denom {d K : ℕ} (g : Matrix (Fin d) (Fin K) ℚ → Matrix (Fin d) (Fin K) ℚ)
    (s : Core d K) : ℚ :=
  let grad := g s.W
  let W := cayley_W g s
  let Y_it := grad_J grad W - grad_J grad s.W
  Matrix.trace (Y_itᵀ * Y_it)

/-- The new step size `lr = |trace(M_itᵀ Y_it) / trace(Y_itᵀ Y_it)|`
(line 119). -/
def bb_lr {d K : ℕ} (g : Matrix (Fin d) (Fin K) ℚ → Matrix (Fin d) (Fin K) ℚ)
    (s : Core d K) : ℚ :=
  |bb_num g s / bb_denom g s|

/-- One full (non-breaking) iteration of the plain solver on the mutable
core state: the Cayley retraction followed by the Barzilai-Borwein
step-size update (lines 93-119 minus the trace/convergence bookkeeping). -/
def plain_upd {d K : ℕ}
    (g : Matrix (Fin d) (Fin K) ℚ → Matrix (Fin d) (Fin K) ℚ)
    (s : Core d K) : Core d K :=
  ⟨cayley_W g s, bb_lr g s⟩

/-- Embedding of the regularized covariance of `ESH_generalized_manifold`
(lines 140-141): `M = XᵀX/n + 0.01·I`. -/
def gen_M {n d : ℕ} (train_features : Matrix (Fin n) (Fin d) ℚ) :
    Matrix (Fin d) (Fin d) ℚ :=
  ((n : ℚ))⁻¹ • (train_featuresᵀ * train_features) +
    (1/100 : ℚ) • (1 : Matrix (Fin d) (Fin d) ℚ)

/-- Embedding of the initialisation `W = eig_vec / np.sqrt(eig_val)`
(line 144): column `j` of the eigenvector matrix `V` is divided by `sc j`,
the (externally computed) square root of the `j`-th eigenvalue. -/
def init_W_gen {d K : ℕ} (V : Matrix (Fin d) (Fin K) ℚ) (sc : Fin K → ℚ) :
    Matrix (Fin d) (Fin K) ℚ :=
  Matrix.of fun i j => V i j / sc j

/-- One iteration of the generalized solver on the core state
(lines 164-172): `F0 = (grad Wᵀ) M`, `F = (F0 - F0ᵀ) M`, Cayley update;
the step-size update is commented out in the source (lines 182-185), so
`lr` is returned unchanged. -/
def gen_upd {d K : ℕ}
    (g : Matrix (Fin d) (Fin K) ℚ → Matrix (Fin d) (Fin K) ℚ)
    (M : Matrix (Fin d) (Fin d) ℚ) (s : Core d K) : Core d K :=
  let grad := g s.W
  let F0 := (grad * s.Wᵀ) * M
  let F1 := F0 - F0ᵀ
  let F := F1 * M
  let Q := minv (1 + (s.lr * (1/2)) • F) * (1 - (s.lr * (1/2)) • F)
  ⟨Q * s.W, s.lr⟩

/-- The loop-visible state: the core state plus the recorded cost trace
(the prefix of `cost_values` written so far). -/
structure LoopState (d K : ℕ) where
  W : Matrix (Fin d) (Fin K) ℚ
  lr : ℚ
  costs : List ℚ

/-- One iteration of either solver loop at loop index `it` (lines 92-119
resp. 157-185): record `cost_values[it]`, apply the core update `upd`, then
perform the convergence check `it % 10 == 0 and it > 0` with relative change
`(cost_values[it] - cost_values[it-10]) / cost_values[it-10]` against `1e-4`.
Returns the next state and whether `break` was executed; on `break` the
step-size update has not run, so `lr` keeps its incoming value. -/
def loop_body {d K : ℕ} (cf : Matrix (Fin d) (Fin K) ℚ → ℚ)
    (upd : Core d K → Core d K) (it : ℕ) (s : LoopState d K) :
    LoopState d K × Bool :=
  let c := cf s.W
  let costs := s.costs ++ [c]
  let s' := upd ⟨s.W, s.lr⟩
  if it % 10 = 0 ∧ 0 < it ∧
      |(c - s.costs.getD (it - 10) 0) / s.costs.getD (it - 10) 0| < 1/10000 then
    (⟨s'.W, s.lr, costs⟩, true)
  else
    (⟨s'.W, s'.lr, costs⟩, false)

/-- The solver loop `for it in range(maxiter)` with early `break`
(lines 92-121 resp. 157-187), parameterised by the cost function `cf` and
the core update `upd` of the respective solver variant.  `it` is the current
loop index and the second argument the remaining number of iterations. -/
def solver_loop {d K : ℕ} (cf : Matrix (Fin d) (Fin K) ℚ → ℚ)
    (upd : Core d K → Core d K) : ℕ → ℕ → LoopState d K → LoopState d K
  | _, 0, s => s
  | it, fuel + 1, s =>
    match loop_body cf upd it s with
    | (s', true) => s'
    | (s', false) => solver_loop cf upd (it + 1) fuel s'

/-- Resolution of the optional `alpha` argument (lines 87-89 resp. 152-154):
when `None` is supplied, `compute_alpha` is evaluated once on the initial `W`
before the main loop; otherwise the supplied value is used. -/
def resolve_alpha {n d K : ℕ} (train_features : Matrix (Fin n) (Fin d) ℚ)
    (W : Matrix (Fin d) (Fin K) ℚ) (Affinity : Matrix (Fin d) (Fin d) ℚ) :
    Option ℚ → ℚ
  | none => compute_alpha train_features W Affinity
  | some a => a

/-- Embedding of `ESH_manifold` (lines 64-121) on the caller-supplied-`W`
path of `initialize_W` (the eigenvector path calls the external `eigsh`).
Returns the learned `W` and the truncated cost trace `cost_values[:it+1]`. -/
def ESH_manifold {n d m K : ℕ}
    (normZ : Matrix (Fin n) (Fin m) ℚ → Matrix (Fin n) (Fin m) ℚ)
    (g : Matrix (Fin d) (Fin K) ℚ → Matrix (Fin d) (Fin K) ℚ)
    (train_features : Matrix (Fin n) (Fin d) ℚ) (Z : Matrix (Fin n) (Fin m) ℚ)
    (alphaOpt : Option ℚ) (lr : ℚ) (maxiter : ℕ)
    (W0 : Matrix (Fin d) (Fin K) ℚ) :
    Matrix (Fin d) (Fin K) ℚ × List ℚ :=
  let Affinity := get_feature_affinity normZ train_features Z
  let W := W0
  let alpha := resolve_alpha train_features W Affinity alphaOpt
  let res := solver_loop (fun W' => cost_fn train_features W' Affinity alpha)
    (plain_upd g) 0 maxiter ⟨W, lr, []⟩
  (res.W, res.costs)

/-- Embedding of `ESH_generalized_manifold` (lines 124-187); the eigenpair
data `(V, sc)` of the external `eigsh` call on `gen_M` is a parameter
(`sc j` standing for `np.sqrt(eig_val[j])`). -/
def ESH_generalized_manifold {n d m K : ℕ}
    (normZ : Matrix (Fin n) (Fin m) ℚ → Matrix (Fin n) (Fin m) ℚ)
    (g : Matrix (Fin d) (Fin K) ℚ → Matrix (Fin d) (Fin K) ℚ)
    (train_features : Matrix (Fin n) (Fin d) ℚ) (Z : Matrix (Fin n) (Fin m) ℚ)
    (alphaOpt : Option ℚ) (lr : ℚ) (maxiter : ℕ)
    (V : Matrix (Fin d) (Fin K) ℚ) (sc : Fin K → ℚ) :
    Matrix (Fin d) (Fin K) ℚ × List ℚ :=
  let Affinity := get_feature_affinity normZ train_features Z
  let M := gen_M train_features
  let W := init_W_gen V sc
  let alpha := resolve_alpha train_features W Affinity alphaOpt
  let res := solver_loop (fun W' => cost_fn train_features W' Affinity alpha)
    (gen_upd g M) 0 maxiter ⟨W, lr, []⟩
  (res.W, res.costs)

/-- The sequence of core states an uninterrupted run of the loop visits:
`nb upd init t` is the core state at the start of loop index `t`. -/
def nb {d K : ℕ} (upd : Core d K → Core d K) (init : Core d K) : ℕ → Core d K
  | 0 => init
  | t + 1 => upd (nb upd init t)

/-- The cost recorded at loop index `t` of an uninterrupted run. -/
def cv {d K : ℕ} (cf : Matrix (Fin d) (Fin K) ℚ → ℚ)
    (upd : Core d K → Core d K) (init : Core d K) (t : ℕ) : ℚ :=
  cf (nb upd init t).W

/-- The convergence condition of loop index `it`: the check is guarded by
`it % 10 == 0 and it > 0` and fires when the relative cost change over the
trailing window of 10 iterations is below `1e-4` in absolute value. -/
def convAt {d K : ℕ} (cf : Matrix (Fin d) (Fin K) ℚ → ℚ)
    (upd : Core d K → Core d K) (init : Core d K) (it : ℕ) : Prop :=
  it % 10 = 0 ∧ 0 < it ∧
    |(cv cf upd init it - cv cf upd init (it - 10)) / cv cf upd init (it - 10)| < 1/10000

instance {d K : ℕ} (cf : Matrix (Fin d) (Fin K) ℚ → ℚ)
    (upd : Core d K → Core d K) (init : Core d K) (it : ℕ) :
    Decidable (convAt cf upd init it) := by
  unfold convAt; infer_instance

/-- The loop state at the start of loop index `it` of an uninterrupted run. -/
def stateAt {d K : ℕ} (cf : Matrix (Fin d) (Fin K) ℚ → ℚ)
    (upd : Core d K → Core d K) (init : Core d K) (it : ℕ) : LoopState d K :=
  ⟨(nb upd init it).W, (nb upd init it).lr, List.map (cv cf upd init) (List.range it)⟩

/-- The cost evaluator as the specification states it (§4.3):
`cost(X, W, A, alpha) = [ -trace(WᵀAW) + 0.5·alpha·‖ |XW| - 1 ‖_F² ] / n`,
with the squared Frobenius norm written in its `trace(YᵀY)` form.  This
definition follows the spec's words; `cost_fn` follows the source. -/
def cost_spec {n d K : ℕ} (X : Matrix (Fin n) (Fin d) ℚ)
    (W : Matrix (Fin d) (Fin K) ℚ) (A : Matrix (Fin d) (Fin d) ℚ)
    (alpha : ℚ) : ℚ :=
  (-Matrix.trace (Wᵀ * A * W) +
      (1/2 : ℚ) * alpha *
        Matrix.trace ((matAbs (X * W) - onesM)ᵀ * (matAbs (X * W) - onesM))) / (n : ℚ)

/-- Termination pattern of one solver run with loop data `(cf, upd, init)`
and returned trace `trace`: either no convergence condition fires before
`maxiter` and the trace has exactly `maxiter` entries (normal, non-error
return), or the run stops at the first checkpoint `it` — a positive
multiple of 10, hence never before iteration 10 — whose relative cost
change `(cost[it] - cost[it-10]) / cost[it-10]` is below `1e-4` in absolute
value, with the trace truncated to exactly `it + 1` entries. -/
def convergence_spec {d K : ℕ} (cf : Matrix (Fin d) (Fin K) ℚ → ℚ)
    (upd : Core d K → Core d K) (init : Core d K) (maxiter : ℕ)
    (trace : List ℚ) : Prop :=
  ((∀ j, j < maxiter → ¬ convAt cf upd init j) ∧ trace.length = maxiter) ∨
  (∃ it : ℕ, 10 ≤ it ∧ it % 10 = 0 ∧ it < maxiter ∧
    trace = List.map (cv cf upd init) (List.range (it + 1)) ∧
    trace.length = it + 1 ∧
    |(cv cf upd init it - cv cf upd init (it - 10)) / cv cf upd init (it - 10)|
      < 1/10000 ∧
    (∀ j, j < it → ¬ convAt cf upd init j))

/-- Off-by-one pattern of one solver run with loop data `(cf, upd, init)`
and result `res = (W, trace)`: for some final iteration index `t`, the
trace lists the costs of the pre-update iterates `0, ..., t` (so its last
entry is the cost at the pre-update point of the final iteration), while
the returned `W` is that pre-update point with the final iteration's
retraction applied — one update past the last recorded cost. -/
def trace_lag_spec {d K : ℕ} (cf : Matrix (Fin d) (Fin K) ℚ → ℚ)
    (upd : Core d K → Core d K) (init : Core d K)
    (res : Matrix (Fin d) (Fin K) ℚ × List ℚ) : Prop :=
  ∃ t : ℕ, res.2 = List.map (cv cf upd init) (List.range (t + 1)) ∧
    res.2.length = t + 1 ∧
    res.2.getD t 0 = cf (nb upd init t).W ∧
    res.1 = (upd (nb upd init t)).W

/-! ## Helper lemmas -/

/-- The executable inverse agrees with the Mathlib matrix inverse over ℚ. -/
theorem minv_eq_inv {d : ℕ} (A : Matrix (Fin d) (Fin d) ℚ) : minv A = A⁻¹ := by
  rw [minv, Matrix.inv_def, Ring.inverse_eq_inv]

theorem minv_one {d : ℕ} : minv (1 : Matrix (Fin d) (Fin d) ℚ) = 1 := by
  rw [minv_eq_inv, inv_one]

/-- The squared Frobenius norm as a trace. -/
theorem frobSq_eq_trace {m n : ℕ} (M : Matrix (Fin m) (Fin n) ℚ) :
    frobSq M = Matrix.trace (Mᵀ * M) := by
  simp only [frobSq, Matrix.trace, Matrix.diag, Matrix.mul_apply,
    Matrix.transpose_apply, sq]
  exact Finset.sum_comm

theorem frobSq_nonneg {m n : ℕ} (M : Matrix (Fin m) (Fin n) ℚ) :
    0 ≤ frobSq M := by
  refine Finset.sum_nonneg fun i _ => Finset.sum_nonneg fun j _ => ?_
  positivity

/-- Indexing the trace of an uninterrupted run. -/
theorem getD_map_range (f : ℕ → ℚ) {i m : ℕ} (h : i < m) :
    (List.map f (List.range m)).getD i 0 = f i := by
  rw [List.getD_eq_getElem?_getD, List.getElem?_map, List.getElem?_range h]
  rfl

/-- One unfolding of the loop from a reachable state: either the convergence
check fires at index `it` (the loop stops with `lr` not updated) or the loop
continues from the next reachable state. -/
theorem solver_loop_step {d K : ℕ} (cf : Matrix (Fin d) (Fin K) ℚ → ℚ)
    (upd : Core d K → Core d K) (init : Core d K) (fuel it : ℕ) :
    solver_loop cf upd it (fuel + 1) (stateAt cf upd init it) =
      if convAt cf upd init it then
        ⟨(upd (nb upd init it)).W, (nb upd init it).lr,
          List.map (cv cf upd init) (List.range (it + 1))⟩
      else solver_loop cf upd (it + 1) fuel (stateAt cf upd init (it + 1)) := by
  have hcosts : List.map (cv cf upd init) (List.range it) ++ [cf (nb upd init it).W] =
      List.map (cv cf upd init) (List.range (it + 1)) := by
    rw [List.range_succ, List.map_append]
    rfl
  have hX : 10 ≤ it →
      (List.map (cv cf upd init) (List.range it)).getD (it - 10) 0 =
        cv cf upd init (it - 10) := fun h10 => getD_map_range _ (by omega)
  have hiff : (it % 10 = 0 ∧ 0 < it ∧
      |(cf (nb upd init it).W -
          (List.map (cv cf upd init) (List.range it)).getD (it - 10) 0) /
        (List.map (cv cf upd init) (List.range it)).getD (it - 10) 0| < 1/10000) ↔
      convAt cf upd init it := by
    constructor
    · rintro ⟨h1, h2, h3⟩
      have h10 : 10 ≤ it := by omega
      rw [hX h10] at h3
      exact ⟨h1, h2, h3⟩
    · rintro ⟨h1, h2, h3⟩
      have h10 : 10 ≤ it := by omega
      exact ⟨h1, h2, by rw [hX h10]; exact h3⟩
  have hbody : loop_body cf upd it (stateAt cf upd init it) =
      if convAt cf upd init it then
        (⟨(upd (nb upd init it)).W, (nb upd init it).lr,
          List.map (cv cf upd init) (List.range (it + 1))⟩, true)
      else
        (⟨(upd (nb upd init it)).W, (upd (nb upd init it)).lr,
          List.map (cv cf upd init) (List.range (it + 1))⟩, false) := by
    by_cases hc : convAt cf upd init it
    · simp only [loop_body, stateAt]
      rw [if_pos (hiff.mpr hc), if_pos hc, hcosts]
    · simp only [loop_body, stateAt]
      rw [if_neg (fun h => hc (hiff.mp h)), if_neg hc, hcosts]
  simp only [solver_loop]
  rw [hbody]
  by_cases hc : convAt cf upd init it
  · rw [if_pos hc, if_pos hc]
  · rw [if_neg hc, if_neg hc]
    rfl

/-- Characterization of a full run of either solver loop from loop index
`it`: the run stops at the first index whose convergence condition fires
(with the trace truncated there and the step size not updated), or runs out
of fuel with the full trace. -/
theorem solver_loop_char {d K : ℕ} (cf : Matrix (Fin d) (Fin K) ℚ → ℚ)
    (upd : Core d K → Core d K) (init : Core d K) :
    ∀ fuel it : ℕ,
      (∃ j0 : ℕ, it ≤ j0 ∧ j0 < it + fuel ∧ convAt cf upd init j0 ∧
        (∀ j, it ≤ j → j < j0 → ¬ convAt cf upd init j) ∧
        solver_loop cf upd it fuel (stateAt cf upd init it) =
          ⟨(upd (nb upd init j0)).W, (nb upd init j0).lr,
            List.map (cv cf upd init) (List.range (j0 + 1))⟩) ∨
      ((∀ j, it ≤ j → j < it + fuel → ¬ convAt cf upd init j) ∧
        solver_loop cf upd it fuel (stateAt cf upd init it) =
          stateAt cf upd init (it + fuel)) := by
  intro fuel
  induction fuel with
  | zero =>
    intro it
    exact Or.inr ⟨fun j h1 h2 => absurd (lt_of_le_of_lt h1 h2) (by omega), rfl⟩
  | succ fuel ih =>
    intro it
    rw [solver_loop_step cf upd init fuel it]
    by_cases hc : convAt cf upd init it
    · rw [if_pos hc]
      exact Or.inl ⟨it, le_refl it, by omega, hc, fun j h1 h2 => absurd h1 (by omega), rfl⟩
    · rw [if_neg hc]
      rcases ih (it + 1) with ⟨j0, hj1, hj2, hj3, hj4, hj5⟩ | ⟨hall, heq⟩
      · refine Or.inl ⟨j0, by omega, by omega, hj3, ?_, hj5⟩
        intro j h1 h2
        rcases Nat.eq_or_lt_of_le h1 with h | h
        · exact h ▸ hc
        · exact hj4 j h h2
      · refine Or.inr ⟨?_, by rw [heq]; congr 1; omega⟩
        intro j h1 h2
        rcases Nat.eq_or_lt_of_le h1 with h | h
        · exact h ▸ hc
        · exact hall j h (by omega)

/-- Characterization of a full solver run (loop started at index 0 with an
empty trace, as both solvers do, from initial point `W0` and step `lr0`). -/
theorem run_char {d K : ℕ} (cf : Matrix (Fin d) (Fin K) ℚ → ℚ)
    (upd : Core d K → Core d K) (W0 : Matrix (Fin d) (Fin K) ℚ)
    (lr0 : ℚ) (maxiter : ℕ) :
    (∃ j0 : ℕ, j0 < maxiter ∧ convAt cf upd ⟨W0, lr0⟩ j0 ∧
      (∀ j, j < j0 → ¬ convAt cf upd ⟨W0, lr0⟩ j) ∧
      solver_loop cf upd 0 maxiter ⟨W0, lr0, []⟩ =
        ⟨(upd (nb upd ⟨W0, lr0⟩ j0)).W, (nb upd ⟨W0, lr0⟩ j0).lr,
          List.map (cv cf upd ⟨W0, lr0⟩) (List.range (j0 + 1))⟩) ∨
    ((∀ j, j < maxiter → ¬ convAt cf upd ⟨W0, lr0⟩ j) ∧
      solver_loop cf upd 0 maxiter ⟨W0, lr0, []⟩ =
        stateAt cf upd ⟨W0, lr0⟩ maxiter) := by
  have h0 : (⟨W0, lr0, []⟩ : LoopState d K) = stateAt cf upd ⟨W0, lr0⟩ 0 := rfl
  rw [h0]
  rcases solver_loop_char cf upd ⟨W0, lr0⟩ maxiter 0 with
    ⟨j0, _, hj2, hj3, hj4, hj5⟩ | ⟨hall, heq⟩
  · exact Or.inl ⟨j0, by omega, hj3, fun j hj => hj4 j (by omega) hj, hj5⟩
  · refine Or.inr ⟨fun j hj => hall j (by omega) (by omega), ?_⟩
    rw [Nat.zero_add] at heq
    exact heq

/-- The plain solver is the generic loop at its cost function, core update
and initial state. -/
theorem ESH_manifold_run {n d m K : ℕ}
    (normZ : Matrix (Fin n) (Fin m) ℚ → Matrix (Fin n) (Fin m) ℚ)
    (g : Matrix (Fin d) (Fin K) ℚ → Matrix (Fin d) (Fin K) ℚ)
    (X : Matrix (Fin n) (Fin d) ℚ) (Z : Matrix (Fin n) (Fin m) ℚ)
    (alphaOpt : Option ℚ) (lr : ℚ) (maxiter : ℕ)
    (W0 : Matrix (Fin d) (Fin K) ℚ) :
    ESH_manifold normZ g X Z alphaOpt lr maxiter W0 =
      ((solver_loop
          (fun W' => cost_fn X W' (get_feature_affinity normZ X Z)
            (resolve_alpha X W0 (get_feature_affinity normZ X Z) alphaOpt))
          (plain_upd g) 0 maxiter ⟨W0, lr, []⟩).W,
        (solver_loop
          (fun W' => cost_fn X W' (get_feature_affinity normZ X Z)
            (resolve_alpha X W0 (get_feature_affinity normZ X Z) alphaOpt))
          (plain_upd g) 0 maxiter ⟨W0, lr, []⟩).costs) := rfl

/-- The generalized solver is the generic loop at its cost function, core
update and initial state. -/
theorem ESH_generalized_run {n d m K : ℕ}
    (normZ : Matrix (Fin n) (Fin m) ℚ → Matrix (Fin n) (Fin m) ℚ)
    (g : Matrix (Fin d) (Fin K) ℚ → Matrix (Fin d) (Fin K) ℚ)
    (X : Matrix (Fin n) (Fin d) ℚ) (Z : Matrix (Fin n) (Fin m) ℚ)
    (alphaOpt : Option ℚ) (lr : ℚ) (maxiter : ℕ)
    (V : Matrix (Fin d) (Fin K) ℚ) (sc : Fin K → ℚ) :
    ESH_generalized_manifold normZ g X Z alphaOpt lr maxiter V sc =
      ((solver_loop
          (fun W' => cost_fn X W' (get_feature_affinity normZ X Z)
            (resolve_alpha X (init_W_gen V sc) (get_feature_affinity normZ X Z) alphaOpt))
          (gen_upd g (gen_M X)) 0 maxiter ⟨init_W_gen V sc, lr, []⟩).W,
        (solver_loop
          (fun W' => cost_fn X W' (get_feature_affinity normZ X Z)
            (resolve_alpha X (init_W_gen V sc) (get_feature_affinity normZ X Z) alphaOpt))
          (gen_upd g (gen_M X)) 0 maxiter ⟨init_W_gen V sc, lr, []⟩).costs) := rfl

/-- If the core update leaves `lr` unchanged, one loop iteration leaves
`lr` unchanged (the break branch never updates it either). -/
theorem loop_body_lr {d K : ℕ} (cf : Matrix (Fin d) (Fin K) ℚ → ℚ)
    (upd : Core d K → Core d K) (h : ∀ s, (upd s).lr = s.lr)
    (it : ℕ) (s : LoopState d K) : ((loop_body cf upd it s).1).lr = s.lr := by
  simp only [loop_body]
  split
  · rfl
  · exact h _

/-- If the core update leaves `lr` unchanged, so does the whole loop. -/
theorem solver_loop_lr_fixed {d K : ℕ} (cf : Matrix (Fin d) (Fin K) ℚ → ℚ)
    (upd : Core d K → Core d K) (h : ∀ s, (upd s).lr = s.lr) :
    ∀ (fuel it : ℕ) (s : LoopState d K),
      (solver_loop cf upd it fuel s).lr = s.lr := by
  intro fuel
  induction fuel with
  | zero => intro it s; rfl
  | succ fuel ih =>
    intro it s
    have hlr := loop_body_lr cf upd h it s
    simp only [solver_loop]
    rcases hb : loop_body cf upd it s with ⟨s', b⟩
    rw [hb] at hlr
    cases b
    · show (solver_loop cf upd (it + 1) fuel s').lr = s.lr
      rw [ih (it + 1) s']
      exact hlr
    · exact hlr

/-- The Cayley transform `(I + A)⁻¹ (I - A)` of a skew-symmetric rational
matrix is orthogonal whenever `I + A` is invertible. -/
theorem cayley_orthogonal {d : ℕ} (A : Matrix (Fin d) (Fin d) ℚ)
    (hskew : Aᵀ = -A) (hdet : IsUnit (1 + A).det) :
    (minv (1 + A) * (1 - A))ᵀ * (minv (1 + A) * (1 - A)) = 1 := by
  have hNT : (1 + A)ᵀ = 1 - A := by
    rw [Matrix.transpose_add, Matrix.transpose_one, hskew, sub_eq_add_neg]
  have hdT : IsUnit ((1 + A)ᵀ).det := by rwa [Matrix.det_transpose]
  have hcomm : (1 + A) * (1 + A)ᵀ = (1 + A)ᵀ * (1 + A) := by
    rw [hNT]
    noncomm_ring
  rw [minv_eq_inv, ← hNT]
  rw [Matrix.transpose_mul, Matrix.transpose_transpose,
    Matrix.transpose_nonsing_inv, Matrix.mul_assoc,
    ← Matrix.mul_assoc ((1 + A)ᵀ)⁻¹ (1 + A)⁻¹ ((1 + A)ᵀ),
    ← Matrix.mul_inv_rev, hcomm, Matrix.mul_inv_rev,
    Matrix.mul_assoc (1 + A)⁻¹ (((1 + A)ᵀ)⁻¹) ((1 + A)ᵀ),
    Matrix.nonsing_inv_mul _ hdT, Matrix.mul_one,
    Matrix.mul_nonsing_inv _ hdet]

/-- Any full solver run satisfies the termination pattern
`convergence_spec`. -/
theorem run_convergence_spec {d K : ℕ} (cf : Matrix (Fin d) (Fin K) ℚ → ℚ)
    (upd : Core d K → Core d K) (W0 : Matrix (Fin d) (Fin K) ℚ)
    (lr0 : ℚ) (maxiter : ℕ) :
    convergence_spec cf upd ⟨W0, lr0⟩ maxiter
      (solver_loop cf upd 0 maxiter ⟨W0, lr0, []⟩).costs := by
  rcases run_char cf upd W0 lr0 maxiter with
    ⟨j0, hj1, hj2, hj3, hj4⟩ | ⟨hall, heq⟩
  · right
    obtain ⟨h10, hpos, hlt⟩ := hj2
    refine ⟨j0, by omega, h10, hj1, ?_, ?_, hlt, hj3⟩
    · rw [hj4]
    · rw [hj4]
      simp
  · left
    refine ⟨hall, ?_⟩
    rw [heq]
    simp [stateAt]

/-- Any full solver run of at least one iteration satisfies the off-by-one
pattern `trace_lag_spec`. -/
theorem run_trace_lag {d K : ℕ} (cf : Matrix (Fin d) (Fin K) ℚ → ℚ)
    (upd : Core d K → Core d K) (W0 : Matrix (Fin d) (Fin K) ℚ)
    (lr0 : ℚ) (maxiter : ℕ) (hmax : 1 ≤ maxiter) :
    trace_lag_spec cf upd ⟨W0, lr0⟩
      ((solver_loop cf upd 0 maxiter ⟨W0, lr0, []⟩).W,
        (solver_loop cf upd 0 maxiter ⟨W0, lr0, []⟩).costs) := by
  rcases run_char cf upd W0 lr0 maxiter with
    ⟨j0, hj1, hj2, hj3, hj4⟩ | ⟨hall, heq⟩
  · refine ⟨j0, ?_, ?_, ?_, ?_⟩
    · rw [hj4]
    · rw [hj4]
      simp
    · show (solver_loop cf upd 0 maxiter ⟨W0, lr0, []⟩).costs.getD j0 0 = _
      rw [hj4]
      show (List.map (cv cf upd ⟨W0, lr0⟩) (List.range (j0 + 1))).getD j0 0 = _
      rw [getD_map_range _ (by omega)]
      rfl
    · rw [hj4]
  · obtain ⟨t, rfl⟩ : ∃ t, maxiter = t + 1 := ⟨maxiter - 1, by omega⟩
    refine ⟨t, ?_, ?_, ?_, ?_⟩
    · rw [heq]
      rfl
    · rw [heq]
      simp [stateAt]
    · show (solver_loop cf upd 0 (t + 1) ⟨W0, lr0, []⟩).costs.getD t 0 = _
      rw [heq]
      show (List.map (cv cf upd ⟨W0, lr0⟩) (List.range (t + 1))).getD t 0 = _
      rw [getD_map_range _ (by omega)]
      rfl
    · rw [heq]
      rfl

/-- The first entry of the trace of a run of at least one iteration is the
cost at the initial point. -/
theorem run_first_cost {d K : ℕ} (cf : Matrix (Fin d) (Fin K) ℚ → ℚ)
    (upd : Core d K → Core d K) (W0 : Matrix (Fin d) (Fin K) ℚ)
    (lr0 : ℚ) (maxiter : ℕ) (hmax : 1 ≤ maxiter) :
    (solver_loop cf upd 0 maxiter ⟨W0, lr0, []⟩).costs.getD 0 0 = cf W0 := by
  rcases run_char cf upd W0 lr0 maxiter with
    ⟨j0, hj1, hj2, hj3, hj4⟩ | ⟨hall, heq⟩
  · rw [hj4]
    show (List.map (cv cf upd ⟨W0, lr0⟩) (List.range (j0 + 1))).getD 0 0 = _
    rw [getD_map_range _ (by omega)]
    rfl
  · rw [heq]
    show (List.map (cv cf upd ⟨W0, lr0⟩) (List.range maxiter)).getD 0 0 = _
    rw [getD_map_range _ (by omega)]
    rfl

/-- The quadratic form of the affinity matrix `A = L Lᵀ` is nonnegative:
`trace(Wᵀ A W) = ‖Lᵀ W‖_F² ≥ 0` (positive semidefiniteness of `A`). -/
theorem affinity_quadform_nonneg {n d m K : ℕ}
    (normZ : Matrix (Fin n) (Fin m) ℚ → Matrix (Fin n) (Fin m) ℚ)
    (X : Matrix (Fin n) (Fin d) ℚ) (Z : Matrix (Fin n) (Fin m) ℚ)
    (W : Matrix (Fin d) (Fin K) ℚ) :
    0 ≤ Matrix.trace (Wᵀ * (get_feature_affinity normZ X Z * W)) := by
  have h : Wᵀ * (get_feature_affinity normZ X Z * W) =
      ((Xᵀ * normZ Z)ᵀ * W)ᵀ * ((Xᵀ * normZ Z)ᵀ * W) := by
    simp only [get_feature_affinity, Matrix.transpose_mul,
      Matrix.transpose_transpose, Matrix.mul_assoc]
  rw [h, ← frobSq_eq_trace]
  exact frobSq_nonneg _

/-- Value of the cost at auto-selected `alpha`: with `main = -trace(WᵀAW)`
and `reg = ‖|XW| - 1‖_F² > 0`, the two cost terms cancel against each other
up to `(main + |main|)/n`. -/
theorem cost_at_auto_alpha {n d K : ℕ} (X : Matrix (Fin n) (Fin d) ℚ)
    (W : Matrix (Fin d) (Fin K) ℚ) (A : Matrix (Fin d) (Fin d) ℚ)
    (hreg : 0 < frobSq (matAbs (X * W) - onesM)) :
    cost_fn X W A (compute_alpha X W A) =
      (-Matrix.trace (Wᵀ * (A * W)) + |(-Matrix.trace (Wᵀ * (A * W)))|) / (n : ℚ) := by
  simp only [cost_fn, compute_alpha]
  have hr : frobSq (matAbs (X * W) - onesM) ≠ 0 := ne_of_gt hreg
  have habs : |2 * ((-1 : ℚ) * Matrix.trace (Wᵀ * (A * W))) /
      frobSq (matAbs (X * W) - onesM)| =
      2 * |Matrix.trace (Wᵀ * (A * W))| / frobSq (matAbs (X * W) - onesM) := by
    rw [abs_div, abs_of_pos hreg, abs_mul, abs_mul]
    norm_num
  rw [habs, abs_neg]
  field_simp

/-- With a zero gradient, the Cayley update is the identity: `F = 0`, so
`Q = I⁻¹ I = I` and `W` is unchanged. -/
theorem cayley_W_zero_grad {d K : ℕ} (s : Core d K) :
    cayley_W (fun _ => 0) s = s.W := by
  simp [cayley_W, minv_one]

/-- With a zero gradient, one plain-solver core update leaves `W` unchanged
and sets `lr = |0/0| = 0` (the exact-arithmetic reading of the
division-by-zero in the step-size update). -/
theorem plain_upd_zero_grad {d K : ℕ} (s : Core d K) :
    plain_upd (fun _ => 0) s = ⟨s.W, 0⟩ := by
  simp [plain_upd, bb_lr, bb_num, bb_denom, grad_J, cayley_W_zero_grad]

/-- A two-iteration plain-solver run with a zero gradient: both iterations
execute (no abort), `W` is returned unchanged and the trace has both cost
entries, even though the step-size denominator was zero at iteration 0. -/
theorem solver_loop_zero_grad_two {d K : ℕ}
    (cf : Matrix (Fin d) (Fin K) ℚ → ℚ)
    (W0 : Matrix (Fin d) (Fin K) ℚ) (lr0 : ℚ) :
    solver_loop cf (plain_upd (fun _ => 0)) 0 2 ⟨W0, lr0, []⟩ =
      ⟨W0, 0, [cf W0, cf W0]⟩ := by
  have hb0 : loop_body cf (plain_upd (fun _ => 0)) 0 ⟨W0, lr0, []⟩ =
      (⟨W0, 0, [cf W0]⟩, false) := by
    simp only [loop_body]
    rw [if_neg]
    · rw [plain_upd_zero_grad]
      rfl
    · rintro ⟨-, h, -⟩
      exact absurd h (lt_irrefl 0)
  have hb1 : loop_body cf (plain_upd (fun _ => 0)) 1 ⟨W0, 0, [cf W0]⟩ =
      (⟨W0, 0, [cf W0, cf W0]⟩, false) := by
    simp only [loop_body]
    rw [if_neg]
    · rw [plain_upd_zero_grad]
      rfl
    · rintro ⟨h, -, -⟩
      norm_num at h
  show (match loop_body cf (plain_upd (fun _ => 0)) 0 ⟨W0, lr0, []⟩ with
    | (s', true) => s'
    | (s', false) => solver_loop cf (plain_upd (fun _ => 0)) 1 1 s') = _
  rw [hb0]
  show (match loop_body cf (plain_upd (fun _ => 0)) 1 ⟨W0, 0, [cf W0]⟩ with
    | (s', true) => s'
    | (s', false) => solver_loop cf (plain_upd (fun _ => 0)) 2 0 s') = _
  rw [hb1]
  rfl

/-! ## Claims -/

/-- C5: for every feature matrix `X`, solution matrix `W`, affinity matrix
`A` and scalar `alpha`, the cost evaluator returns exactly
`[ -trace(WᵀAW) + 0.5·alpha·‖ |XW| - 1 ‖_F² ] / n` with `n` the number of
rows of `X`, the absolute value elementwise and `‖·‖_F` the Frobenius norm
(whose square is `trace(YᵀY)`). -/
theorem C5_cost_evaluator_formula {n d K : ℕ} (X : Matrix (Fin n) (Fin d) ℚ)
    (W : Matrix (Fin d) (Fin K) ℚ) (A : Matrix (Fin d) (Fin d) ℚ)
    (alpha : ℚ) : cost_fn X W A alpha = cost_spec X W A alpha := by
  simp only [cost_fn, cost_spec]
  rw [frobSq_eq_trace, ← Matrix.mul_assoc]
  ring

/-- C6: whenever a solve is called with `alpha = None`, the regularization
weight is computed once, before the first iteration, from the initial `W`
as `alpha = |2·main_cost/reg|` with `main_cost = -trace(WᵀAW)` and
`reg = ‖ |XW| - 1 ‖_F²`, and the solve equals the solve with that constant
`alpha` for every subsequent iteration. -/
theorem C6_alpha_computed_once {n d m K : ℕ}
    (normZ : Matrix (Fin n) (Fin m) ℚ → Matrix (Fin n) (Fin m) ℚ)
    (g : Matrix (Fin d) (Fin K) ℚ → Matrix (Fin d) (Fin K) ℚ)
    (X : Matrix (Fin n) (Fin d) ℚ) (Z : Matrix (Fin n) (Fin m) ℚ)
    (lr : ℚ) (maxiter : ℕ) (W0 : Matrix (Fin d) (Fin K) ℚ) :
    ESH_manifold normZ g X Z none lr maxiter W0 =
      ESH_manifold normZ g X Z
        (some (compute_alpha X W0 (get_feature_affinity normZ X Z)))
        lr maxiter W0 ∧
    compute_alpha X W0 (get_feature_affinity normZ X Z) =
      |2 * ((-1 : ℚ) * Matrix.trace (W0ᵀ * (get_feature_affinity normZ X Z * W0))) /
        frobSq (matAbs (X * W0) - onesM)| :=
  ⟨rfl, rfl⟩

/-- C4: in both solvers, the convergence check runs exactly at iteration
indices 10, 20, 30, ... (never before iteration 10): it computes
`(cost[it] - cost[it-10]) / cost[it-10]`, and if its absolute value is
below `1e-4` the loop stops with the returned cost trace truncated to
exactly `it+1` entries; if `maxiter` is reached without this condition
firing, the solve returns normally with a trace of exactly `maxiter`
entries. -/
theorem C4_convergence_and_termination {n d m K : ℕ}
    (normZ : Matrix (Fin n) (Fin m) ℚ → Matrix (Fin n) (Fin m) ℚ)
    (g g2 : Matrix (Fin d) (Fin K) ℚ → Matrix (Fin d) (Fin K) ℚ)
    (X : Matrix (Fin n) (Fin d) ℚ) (Z : Matrix (Fin n) (Fin m) ℚ)
    (alphaOpt alphaOpt2 : Option ℚ) (lr lr2 : ℚ) (maxiter maxiter2 : ℕ)
    (W0 V : Matrix (Fin d) (Fin K) ℚ) (sc : Fin K → ℚ) :
    convergence_spec
      (fun W' => cost_fn X W' (get_feature_affinity normZ X Z)
        (resolve_alpha X W0 (get_feature_affinity normZ X Z) alphaOpt))
      (plain_upd g) ⟨W0, lr⟩ maxiter
      (ESH_manifold normZ g X Z alphaOpt lr maxiter W0).2 ∧
    convergence_spec
      (fun W' => cost_fn X W' (get_feature_affinity normZ X Z)
        (resolve_alpha X (init_W_gen V sc) (get_feature_affinity normZ X Z) alphaOpt2))
      (gen_upd g2 (gen_M X)) ⟨init_W_gen V sc, lr2⟩ maxiter2
      (ESH_generalized_manifold normZ g2 X Z alphaOpt2 lr2 maxiter2 V sc).2 :=
  ⟨run_convergence_spec _ _ _ _ _, run_convergence_spec _ _ _ _ _⟩

/-- C10: for every terminating run of either solver (converged or
maxiter-exhausted, with at least one iteration), the last entry of the
returned cost trace is the cost at the pre-update point of the final
iteration while the returned `W` has that final iteration's retraction
applied: the returned `W` is one Cayley update past the point whose cost is
last recorded, and every trace entry is the cost of a pre-update iterate. -/
theorem C10_trace_lags_returned_W {n d m K : ℕ}
    (normZ : Matrix (Fin n) (Fin m) ℚ → Matrix (Fin n) (Fin m) ℚ)
    (g g2 : Matrix (Fin d) (Fin K) ℚ → Matrix (Fin d) (Fin K) ℚ)
    (X : Matrix (Fin n) (Fin d) ℚ) (Z : Matrix (Fin n) (Fin m) ℚ)
    (alphaOpt alphaOpt2 : Option ℚ) (lr lr2 : ℚ) (maxiter maxiter2 : ℕ)
    (W0 V : Matrix (Fin d) (Fin K) ℚ) (sc : Fin K → ℚ)
    (hmax : 1 ≤ maxiter) (hmax2 : 1 ≤ maxiter2) :
    trace_lag_spec
      (fun W' => cost_fn X W' (get_feature_affinity normZ X Z)
        (resolve_alpha X W0 (get_feature_affinity normZ X Z) alphaOpt))
      (plain_upd g) ⟨W0, lr⟩
      (ESH_manifold normZ g X Z alphaOpt lr maxiter W0) ∧
    trace_lag_spec
      (fun W' => cost_fn X W' (get_feature_affinity normZ X Z)
        (resolve_alpha X (init_W_gen V sc) (get_feature_affinity normZ X Z) alphaOpt2))
      (gen_upd g2 (gen_M X)) ⟨init_W_gen V sc, lr2⟩
      (ESH_generalized_manifold normZ g2 X Z alphaOpt2 lr2 maxiter2 V sc) :=
  ⟨run_trace_lag _ _ _ _ _ hmax, run_trace_lag _ _ _ _ _ hmax2⟩

/-- Witness for C10 at `n = d = m = K = 1` with `maxiter = 1` for both
solvers. -/
theorem C10_trace_lags_returned_W_witness :
    (1 ≤ 1) ∧
    (trace_lag_spec
      (fun W' => cost_fn !![(1:ℚ)] W' (get_feature_affinity (fun Zm => Zm) !![(1:ℚ)] !![(1:ℚ)])
        (resolve_alpha !![(1:ℚ)] !![(1:ℚ)]
          (get_feature_affinity (fun Zm => Zm) !![(1:ℚ)] !![(1:ℚ)]) (some 1)))
      (plain_upd (fun _ => 0)) ⟨!![(1:ℚ)], 1⟩
      (ESH_manifold (fun Zm => Zm) (fun _ => 0) !![(1:ℚ)] !![(1:ℚ)] (some 1) 1 1 !![(1:ℚ)]) ∧
    trace_lag_spec
      (fun W' => cost_fn !![(1:ℚ)] W' (get_feature_affinity (fun Zm => Zm) !![(1:ℚ)] !![(1:ℚ)])
        (resolve_alpha !![(1:ℚ)] (init_W_gen !![(1:ℚ)] (fun _ => 1))
          (get_feature_affinity (fun Zm => Zm) !![(1:ℚ)] !![(1:ℚ)]) (some 1)))
      (gen_upd (fun _ => 0) (gen_M !![(1:ℚ)])) ⟨init_W_gen !![(1:ℚ)] (fun _ => 1), 1⟩
      (ESH_generalized_manifold (fun Zm => Zm) (fun _ => 0) !![(1:ℚ)] !![(1:ℚ)] (some 1) 1 1
        !![(1:ℚ)] (fun _ => 1))) :=
  ⟨le_refl 1,
    C10_trace_lags_returned_W (fun Zm => Zm) (fun _ => 0) (fun _ => 0) !![(1:ℚ)] !![(1:ℚ)]
      (some 1) (some 1) 1 1 1 1 !![(1:ℚ)] !![(1:ℚ)] (fun _ => 1) (le_refl 1) (le_refl 1)⟩

/-- C9: for every solve run with `alpha = None` (and at least one
iteration), writing `main = -trace(W0ᵀ A W0)` and
`reg = ‖ |X W0| - 1 ‖_F²` at the initial `W0` with `reg > 0`, the first
entry of the returned cost trace equals `(main + |main|)/n` in exact
arithmetic; `main ≤ 0` always holds because `A = L Lᵀ` is positive
semidefinite, so the first entry is exactly `0`. -/
theorem C9_first_trace_entry_zero {n d m K : ℕ}
    (normZ : Matrix (Fin n) (Fin m) ℚ → Matrix (Fin n) (Fin m) ℚ)
    (g : Matrix (Fin d) (Fin K) ℚ → Matrix (Fin d) (Fin K) ℚ)
    (X : Matrix (Fin n) (Fin d) ℚ) (Z : Matrix (Fin n) (Fin m) ℚ)
    (lr : ℚ) (maxiter : ℕ) (W0 : Matrix (Fin d) (Fin K) ℚ)
    (hmax : 1 ≤ maxiter)
    (hreg : 0 < frobSq (matAbs (X * W0) - onesM)) :
    (ESH_manifold normZ g X Z none lr maxiter W0).2.getD 0 0 =
      (-Matrix.trace (W0ᵀ * (get_feature_affinity normZ X Z * W0)) +
        |(-Matrix.trace (W0ᵀ * (get_feature_affinity normZ X Z * W0)))|) / (n : ℚ) ∧
    -Matrix.trace (W0ᵀ * (get_feature_affinity normZ X Z * W0)) ≤ 0 ∧
    (ESH_manifold normZ g X Z none lr maxiter W0).2.getD 0 0 = 0 := by
  have hfirst : (ESH_manifold normZ g X Z none lr maxiter W0).2.getD 0 0 =
      cost_fn X W0 (get_feature_affinity normZ X Z)
        (compute_alpha X W0 (get_feature_affinity normZ X Z)) :=
    run_first_cost _ _ _ _ _ hmax
  have hpsd := affinity_quadform_nonneg normZ X Z W0
  have hmain : -Matrix.trace (W0ᵀ * (get_feature_affinity normZ X Z * W0)) ≤ 0 :=
    neg_nonpos.mpr hpsd
  have hcost := cost_at_auto_alpha (n := n) X W0 (get_feature_affinity normZ X Z) hreg
  refine ⟨hfirst.trans hcost, hmain, ?_⟩
  rw [hfirst, hcost, abs_of_nonpos hmain]
  simp

/-- Witness for C9 at `n = d = m = K = 1`, `X = [[2]]`, `W0 = [[1]]`,
`maxiter = 1`. -/
theorem C9_first_trace_entry_zero_witness :
    (1 ≤ 1) ∧
    (0 < frobSq (matAbs ((!![(2:ℚ)] : Matrix (Fin 1) (Fin 1) ℚ) * !![(1:ℚ)]) - onesM)) ∧
    ((ESH_manifold (fun Zm => Zm) (fun _ => 0) !![(2:ℚ)] !![(1:ℚ)] none 1 1 !![(1:ℚ)]).2.getD 0 0 =
      (-Matrix.trace ((!![(1:ℚ)] : Matrix (Fin 1) (Fin 1) ℚ)ᵀ *
          (get_feature_affinity (fun Zm => Zm) !![(2:ℚ)] !![(1:ℚ)] * !![(1:ℚ)])) +
        |(-Matrix.trace ((!![(1:ℚ)] : Matrix (Fin 1) (Fin 1) ℚ)ᵀ *
          (get_feature_affinity (fun Zm => Zm) !![(2:ℚ)] !![(1:ℚ)] * !![(1:ℚ)])))|) / ((1 : ℕ) : ℚ) ∧
    -Matrix.trace ((!![(1:ℚ)] : Matrix (Fin 1) (Fin 1) ℚ)ᵀ *
        (get_feature_affinity (fun Zm => Zm) !![(2:ℚ)] !![(1:ℚ)] * !![(1:ℚ)])) ≤ 0 ∧
    (ESH_manifold (fun Zm => Zm) (fun _ => 0) !![(2:ℚ)] !![(1:ℚ)] none 1 1 !![(1:ℚ)]).2.getD 0 0 = 0) := by
  have hreg : 0 < frobSq (matAbs ((!![(2:ℚ)] : Matrix (Fin 1) (Fin 1) ℚ) * !![(1:ℚ)]) - onesM) := by
    norm_num [frobSq, matAbs, onesM, Matrix.mul_apply]
  exact ⟨le_refl 1, hreg,
    C9_first_trace_entry_zero (fun Zm => Zm) (fun _ => 0) !![(2:ℚ)] !![(1:ℚ)] 1 1 !![(1:ℚ)]
      (le_refl 1) hreg⟩

/-- C1: for every iteration of the plain solver: if the current `W`
satisfies `WᵀW = I_K`, then with `F = GWᵀ - (GWᵀ)ᵀ` (for any gradient `G`,
here the oracle value `g W`) and `Q = (I + (lr/2)F)⁻¹(I - (lr/2)F)`
(assuming the inverse exists), the updated point `QW` of the iteration again
satisfies `(QW)ᵀ(QW) = I_K` in exact arithmetic; the iteration `cayley_W`
performs no re-orthonormalization step. -/
theorem C1_orthonormality_invariant {d K : ℕ}
    (g : Matrix (Fin d) (Fin K) ℚ → Matrix (Fin d) (Fin K) ℚ)
    (W : Matrix (Fin d) (Fin K) ℚ) (lr : ℚ)
    (hW : Wᵀ * W = 1)
    (hdet : IsUnit (1 + (lr * (1/2)) • (g W * Wᵀ - (g W * Wᵀ)ᵀ)).det) :
    (cayley_W g ⟨W, lr⟩)ᵀ * cayley_W g ⟨W, lr⟩ = 1 := by
  have hskew : ((lr * (1/2)) • (g W * Wᵀ - (g W * Wᵀ)ᵀ))ᵀ =
      -((lr * (1/2)) • (g W * Wᵀ - (g W * Wᵀ)ᵀ)) := by
    rw [Matrix.transpose_smul, Matrix.transpose_sub, Matrix.transpose_transpose,
      ← smul_neg, neg_sub]
  have hQ := cayley_orthogonal _ hskew hdet
  have hcw : cayley_W g ⟨W, lr⟩ =
      (minv (1 + (lr * (1/2)) • (g W * Wᵀ - (g W * Wᵀ)ᵀ)) *
        (1 - (lr * (1/2)) • (g W * Wᵀ - (g W * Wᵀ)ᵀ))) * W := rfl
  rw [hcw, Matrix.transpose_mul, Matrix.mul_assoc,
    ← Matrix.mul_assoc _ _ W, hQ, Matrix.one_mul, hW]

/-- Witness for C1 at `d = K = 1`, `W = [[1]]`, the zero gradient oracle and
`lr = 1/100`: both hypotheses hold and the updated point is orthonormal. -/
theorem C1_orthonormality_invariant_witness :
    ((!![1] : Matrix (Fin 1) (Fin 1) ℚ)ᵀ * !![1] = 1 ∧
      IsUnit (1 + ((1/100 : ℚ) * (1/2)) •
        ((fun _ => (0 : Matrix (Fin 1) (Fin 1) ℚ)) !![1] * (!![1] : Matrix (Fin 1) (Fin 1) ℚ)ᵀ -
          ((fun _ => (0 : Matrix (Fin 1) (Fin 1) ℚ)) !![1] * (!![1] : Matrix (Fin 1) (Fin 1) ℚ)ᵀ)ᵀ)).det) ∧
    (cayley_W (fun _ => (0 : Matrix (Fin 1) (Fin 1) ℚ)) ⟨!![1], 1/100⟩)ᵀ *
      cayley_W (fun _ => (0 : Matrix (Fin 1) (Fin 1) ℚ)) ⟨!![1], 1/100⟩ = 1 := by
  have hW : (!![1] : Matrix (Fin 1) (Fin 1) ℚ)ᵀ * !![1] = 1 := by
    ext i j
    fin_cases i
    fin_cases j
    simp [Matrix.mul_apply]
  have hdet : IsUnit (1 + ((1/100 : ℚ) * (1/2)) •
      ((fun _ => (0 : Matrix (Fin 1) (Fin 1) ℚ)) !![1] * (!![1] : Matrix (Fin 1) (Fin 1) ℚ)ᵀ -
        ((fun _ => (0 : Matrix (Fin 1) (Fin 1) ℚ)) !![1] * (!![1] : Matrix (Fin 1) (Fin 1) ℚ)ᵀ)ᵀ)).det := by
    simp
  exact ⟨⟨hW, hdet⟩, C1_orthonormality_invariant (fun _ => 0) !![1] (1/100) hW hdet⟩

/-- C2 counterexample: the claim's step-size formula — with `G` the gradient
evaluated at the new (post-update) `W` and `G_old` the gradient evaluated at
`W_old` — does not match the code.  At `d = 2`, `K = 1`, `W_old = [[1],[0]]`,
`lr = 1`, and the gradient oracle `W ↦ [[0,1],[1,0]]·W`, one core iteration
of the plain solver produces `W = [[3/5],[-4/5]]` and the updated
`lr = 1/2`, while the claim's formula evaluates to `160/221 ≠ 1/2`. -/
theorem C2_counterexample_two_gradients :
    plain_upd (fun W => !![(0:ℚ), 1; 1, 0] * W) ⟨!![(1:ℚ); 0], 1⟩ =
      (⟨!![(3/5 : ℚ); -(4/5)], 1/2⟩ : Core 2 1) ∧
    |Matrix.trace ((!![(3/5 : ℚ); -(4/5)] - !![(1:ℚ); 0])ᵀ *
        (grad_J (!![(0:ℚ), 1; 1, 0] * !![(3/5 : ℚ); -(4/5)]) !![(3/5 : ℚ); -(4/5)] -
          grad_J (!![(0:ℚ), 1; 1, 0] * !![(1:ℚ); 0]) !![(1:ℚ); 0])) /
      Matrix.trace ((grad_J (!![(0:ℚ), 1; 1, 0] * !![(3/5 : ℚ); -(4/5)]) !![(3/5 : ℚ); -(4/5)] -
          grad_J (!![(0:ℚ), 1; 1, 0] * !![(1:ℚ); 0]) !![(1:ℚ); 0])ᵀ *
        (grad_J (!![(0:ℚ), 1; 1, 0] * !![(3/5 : ℚ); -(4/5)]) !![(3/5 : ℚ); -(4/5)] -
          grad_J (!![(0:ℚ), 1; 1, 0] * !![(1:ℚ); 0]) !![(1:ℚ); 0]))| = 160/221 ∧
    (1/2 : ℚ) ≠ 160/221 := by
  have hg0 : !![(0:ℚ), 1; 1, 0] * !![(1:ℚ); 0] = !![0; 1] := by
    ext i j
    fin_cases i <;> fin_cases j <;>
      simp [Matrix.mul_apply, Fin.sum_univ_two, Matrix.vecHead, Matrix.vecTail, Matrix.cons_val_zero, Matrix.cons_val_one, Matrix.head_cons, Matrix.head_fin_const, Matrix.transpose_apply]
  have hN : (1 : Matrix (Fin 2) (Fin 2) ℚ) + ((1 : ℚ) * (1/2)) •
      (!![(0:ℚ), 1; 1, 0] * !![(1:ℚ); 0] * (!![(1:ℚ); 0])ᵀ -
        (!![(0:ℚ), 1; 1, 0] * !![(1:ℚ); 0] * (!![(1:ℚ); 0])ᵀ)ᵀ) =
      !![1, -(1/2); 1/2, 1] := by
    ext i j
    fin_cases i <;> fin_cases j <;>
      simp [Matrix.mul_apply, Fin.sum_univ_two, Matrix.vecHead, Matrix.vecTail, Matrix.cons_val_zero, Matrix.cons_val_one, Matrix.head_cons, Matrix.head_fin_const, Matrix.transpose_apply, Matrix.one_apply]
  have hM1 : (1 : Matrix (Fin 2) (Fin 2) ℚ) - ((1 : ℚ) * (1/2)) •
      (!![(0:ℚ), 1; 1, 0] * !![(1:ℚ); 0] * (!![(1:ℚ); 0])ᵀ -
        (!![(0:ℚ), 1; 1, 0] * !![(1:ℚ); 0] * (!![(1:ℚ); 0])ᵀ)ᵀ) =
      !![1, 1/2; -(1/2), 1] := by
    ext i j
    fin_cases i <;> fin_cases j <;>
      simp [Matrix.mul_apply, Fin.sum_univ_two, Matrix.vecHead, Matrix.vecTail, Matrix.cons_val_zero, Matrix.cons_val_one, Matrix.head_cons, Matrix.head_fin_const, Matrix.transpose_apply, Matrix.one_apply]
  have hminv : minv !![(1:ℚ), -(1/2); 1/2, 1] = !![4/5, 2/5; -(2/5), 4/5] := by
    rw [minv, Matrix.det_fin_two_of, Matrix.adjugate_fin_two_of]
    ext i j
    fin_cases i <;> fin_cases j <;> simp <;> norm_num
  have hQ : !![(4/5 : ℚ), 2/5; -(2/5), 4/5] * !![(1:ℚ), 1/2; -(1/2), 1] =
      !![3/5, 4/5; -(4/5), 3/5] := by
    ext i j
    fin_cases i <;> fin_cases j <;>
      simp [Matrix.mul_apply, Fin.sum_univ_two, Matrix.vecHead, Matrix.vecTail, Matrix.cons_val_zero, Matrix.cons_val_one, Matrix.head_cons, Matrix.head_fin_const, Matrix.transpose_apply] <;> norm_num
  have hQW : !![(3/5 : ℚ), 4/5; -(4/5), 3/5] * !![(1:ℚ); 0] = !![3/5; -(4/5)] := by
    ext i j
    fin_cases i <;> fin_cases j <;>
      simp [Matrix.mul_apply, Fin.sum_univ_two, Matrix.vecHead, Matrix.vecTail, Matrix.cons_val_zero, Matrix.cons_val_one, Matrix.head_cons, Matrix.head_fin_const, Matrix.transpose_apply]
  have hCW : cayley_W (fun W => !![(0:ℚ), 1; 1, 0] * W) ⟨!![(1:ℚ); 0], 1⟩ =
      !![(3/5 : ℚ); -(4/5)] := by
    show minv ((1 : Matrix (Fin 2) (Fin 2) ℚ) + ((1 : ℚ) * (1/2)) •
        (!![(0:ℚ), 1; 1, 0] * !![(1:ℚ); 0] * (!![(1:ℚ); 0])ᵀ -
          (!![(0:ℚ), 1; 1, 0] * !![(1:ℚ); 0] * (!![(1:ℚ); 0])ᵀ)ᵀ)) *
      ((1 : Matrix (Fin 2) (Fin 2) ℚ) - ((1 : ℚ) * (1/2)) •
        (!![(0:ℚ), 1; 1, 0] * !![(1:ℚ); 0] * (!![(1:ℚ); 0])ᵀ -
          (!![(0:ℚ), 1; 1, 0] * !![(1:ℚ); 0] * (!![(1:ℚ); 0])ᵀ)ᵀ)) * !![(1:ℚ); 0] =
      !![(3/5 : ℚ); -(4/5)]
    rw [hN, hM1, hminv, hQ, hQW]
  have hJcode_new : grad_J !![(0:ℚ); 1] !![(3/5 : ℚ); -(4/5)] = !![12/25; 9/25] := by
    ext i j
    fin_cases i <;> fin_cases j <;>
      simp [grad_J, Matrix.mul_apply, Fin.sum_univ_two, Matrix.vecHead, Matrix.vecTail, Matrix.cons_val_zero, Matrix.cons_val_one, Matrix.head_cons, Matrix.head_fin_const, Matrix.transpose_apply] <;> norm_num
  have hJold : grad_J !![(0:ℚ); 1] !![(1:ℚ); 0] = !![0; 1] := by
    ext i j
    fin_cases i <;> fin_cases j <;>
      simp [grad_J, Matrix.mul_apply, Fin.sum_univ_two, Matrix.vecHead, Matrix.vecTail, Matrix.cons_val_zero, Matrix.cons_val_one, Matrix.head_cons, Matrix.head_fin_const, Matrix.transpose_apply]
  have hMit : !![(3/5 : ℚ); -(4/5)] - !![(1:ℚ); 0] = !![-(2/5); -(4/5)] := by
    ext i j
    fin_cases i <;> fin_cases j <;> simp <;> norm_num
  have hYcode : !![(12/25 : ℚ); 9/25] - !![(0:ℚ); 1] = !![12/25; -(16/25)] := by
    ext i j
    fin_cases i <;> fin_cases j <;> simp <;> norm_num
  have htr_num : Matrix.trace ((!![-(2/5 : ℚ); -(4/5)])ᵀ * !![(12/25 : ℚ); -(16/25)]) =
      8/25 := by
    rw [Matrix.trace_fin_one]
    simp [Matrix.mul_apply, Fin.sum_univ_two, Matrix.vecHead, Matrix.vecTail, Matrix.cons_val_zero, Matrix.cons_val_one, Matrix.head_cons, Matrix.head_fin_const, Matrix.transpose_apply]
    norm_num
  have htr_den : Matrix.trace ((!![(12/25 : ℚ); -(16/25)])ᵀ * !![(12/25 : ℚ); -(16/25)]) =
      16/25 := by
    rw [Matrix.trace_fin_one]
    simp [Matrix.mul_apply, Fin.sum_univ_two, Matrix.vecHead, Matrix.vecTail, Matrix.cons_val_zero, Matrix.cons_val_one, Matrix.head_cons, Matrix.head_fin_const, Matrix.transpose_apply]
    norm_num
  have hlr : bb_lr (fun W => !![(0:ℚ), 1; 1, 0] * W) ⟨!![(1:ℚ); 0], 1⟩ = 1/2 := by
    have hnum : bb_num (fun W => !![(0:ℚ), 1; 1, 0] * W) ⟨!![(1:ℚ); 0], 1⟩ = 8/25 := by
      show Matrix.trace
        ((cayley_W (fun W => !![(0:ℚ), 1; 1, 0] * W) ⟨!![(1:ℚ); 0], 1⟩ - !![(1:ℚ); 0])ᵀ *
          (grad_J (!![(0:ℚ), 1; 1, 0] * !![(1:ℚ); 0])
              (cayley_W (fun W => !![(0:ℚ), 1; 1, 0] * W) ⟨!![(1:ℚ); 0], 1⟩) -
            grad_J (!![(0:ℚ), 1; 1, 0] * !![(1:ℚ); 0]) !![(1:ℚ); 0])) = 8/25
      rw [hCW, hg0, hJcode_new, hJold, hMit, hYcode, htr_num]
    have hden : bb_denom (fun W => !![(0:ℚ), 1; 1, 0] * W) ⟨!![(1:ℚ); 0], 1⟩ = 16/25 := by
      show Matrix.trace
        ((grad_J (!![(0:ℚ), 1; 1, 0] * !![(1:ℚ); 0])
              (cayley_W (fun W => !![(0:ℚ), 1; 1, 0] * W) ⟨!![(1:ℚ); 0], 1⟩) -
            grad_J (!![(0:ℚ), 1; 1, 0] * !![(1:ℚ); 0]) !![(1:ℚ); 0])ᵀ *
          (grad_J (!![(0:ℚ), 1; 1, 0] * !![(1:ℚ); 0])
              (cayley_W (fun W => !![(0:ℚ), 1; 1, 0] * W) ⟨!![(1:ℚ); 0], 1⟩) -
            grad_J (!![(0:ℚ), 1; 1, 0] * !![(1:ℚ); 0]) !![(1:ℚ); 0])) = 16/25
      rw [hCW, hg0, hJcode_new, hJold, hYcode, htr_den]
    rw [bb_lr, hnum, hden]
    norm_num
  refine ⟨?_, ?_, by norm_num⟩
  · show (⟨cayley_W (fun W => !![(0:ℚ), 1; 1, 0] * W) ⟨!![(1:ℚ); 0], 1⟩,
        bb_lr (fun W => !![(0:ℚ), 1; 1, 0] * W) ⟨!![(1:ℚ); 0], 1⟩⟩ : Core 2 1) =
      ⟨!![(3/5 : ℚ); -(4/5)], 1/2⟩
    rw [hCW, hlr]
  · have hGnew : !![(0:ℚ), 1; 1, 0] * !![(3/5 : ℚ); -(4/5)] = !![-(4/5); 3/5] := by
      ext i j
      fin_cases i <;> fin_cases j <;>
        simp [Matrix.mul_apply, Fin.sum_univ_two, Matrix.vecHead, Matrix.vecTail, Matrix.cons_val_zero, Matrix.cons_val_one, Matrix.head_cons, Matrix.head_fin_const, Matrix.transpose_apply]
    have hJclaim_new : grad_J (!![-(4/5 : ℚ); 3/5]) !![(3/5 : ℚ); -(4/5)] =
        !![-(28/125); -(21/125)] := by
      ext i j
      fin_cases i <;> fin_cases j <;>
        simp [grad_J, Matrix.mul_apply, Fin.sum_univ_two, Matrix.vecHead, Matrix.vecTail, Matrix.cons_val_zero, Matrix.cons_val_one, Matrix.head_cons, Matrix.head_fin_const, Matrix.transpose_apply] <;> norm_num
    have hYclaim : !![-(28/125 : ℚ); -(21/125)] - !![(0:ℚ); 1] =
        !![-(28/125); -(146/125)] := by
      ext i j
      fin_cases i <;> fin_cases j <;> simp <;> norm_num
    have htr1 : Matrix.trace ((!![-(2/5 : ℚ); -(4/5)])ᵀ *
        !![-(28/125 : ℚ); -(146/125)]) = 640/625 := by
      rw [Matrix.trace_fin_one]
      simp [Matrix.mul_apply, Fin.sum_univ_two, Matrix.vecHead, Matrix.vecTail, Matrix.cons_val_zero, Matrix.cons_val_one, Matrix.head_cons, Matrix.head_fin_const, Matrix.transpose_apply]
      norm_num
    have htr2 : Matrix.trace ((!![-(28/125 : ℚ); -(146/125)])ᵀ *
        !![-(28/125 : ℚ); -(146/125)]) = 22100/15625 := by
      rw [Matrix.trace_fin_one]
      simp [Matrix.mul_apply, Fin.sum_univ_two, Matrix.vecHead, Matrix.vecTail, Matrix.cons_val_zero, Matrix.cons_val_one, Matrix.head_cons, Matrix.head_fin_const, Matrix.transpose_apply]
      norm_num
    rw [hGnew, hg0, hJclaim_new, hJold, hYclaim, hMit, htr1, htr2]
    norm_num

/-- C2 amended: in every non-breaking iteration of the plain solver, after
the retraction the step size is updated to
`lr = |trace(M_itᵀ Y_it) / trace(Y_itᵀ Y_it)|` with `M_it = W - W_old` and
`Y_it = grad_J(G, W) - grad_J(G, W_old)`, where `G` is the single gradient
evaluated at the pre-update point `W_old` (the same `G` appears in both
terms; no gradient is recomputed at the new `W`). -/
theorem C2_amended_single_gradient {d K : ℕ}
    (cf : Matrix (Fin d) (Fin K) ℚ → ℚ)
    (g : Matrix (Fin d) (Fin K) ℚ → Matrix (Fin d) (Fin K) ℚ)
    (it : ℕ) (s : LoopState d K)
    (hnb : (loop_body cf (plain_upd g) it s).2 = false) :
    ((loop_body cf (plain_upd g) it s).1).lr =
      |Matrix.trace ((cayley_W g ⟨s.W, s.lr⟩ - s.W)ᵀ *
          (grad_J (g s.W) (cayley_W g ⟨s.W, s.lr⟩) - grad_J (g s.W) s.W)) /
        Matrix.trace ((grad_J (g s.W) (cayley_W g ⟨s.W, s.lr⟩) - grad_J (g s.W) s.W)ᵀ *
          (grad_J (g s.W) (cayley_W g ⟨s.W, s.lr⟩) - grad_J (g s.W) s.W))| := by
  by_cases hC : (it % 10 = 0 ∧ 0 < it ∧
      |(cf s.W - s.costs.getD (it - 10) 0) / s.costs.getD (it - 10) 0| < 1/10000)
  · exfalso
    simp only [loop_body, if_pos hC] at hnb
    exact absurd hnb (by simp)
  · simp only [loop_body, if_neg hC]
    rfl

/-- Witness for C2's amended claim at `d = K = 1`, zero oracle, iteration 0
of a fresh state. -/
theorem C2_amended_single_gradient_witness :
    ((loop_body (fun _ => (0:ℚ))
      (plain_upd (fun _ => (0 : Matrix (Fin 1) (Fin 1) ℚ)))
      0 ⟨!![(1:ℚ)], 1/100, []⟩).2 = false) ∧
    ((loop_body (fun _ => (0:ℚ))
        (plain_upd (fun _ => (0 : Matrix (Fin 1) (Fin 1) ℚ)))
        0 ⟨!![(1:ℚ)], 1/100, []⟩).1).lr =
      |Matrix.trace ((cayley_W (fun _ => 0) ⟨!![(1:ℚ)], 1/100⟩ - !![(1:ℚ)])ᵀ *
          (grad_J ((fun _ => (0 : Matrix (Fin 1) (Fin 1) ℚ)) !![(1:ℚ)])
              (cayley_W (fun _ => 0) ⟨!![(1:ℚ)], 1/100⟩) -
            grad_J ((fun _ => (0 : Matrix (Fin 1) (Fin 1) ℚ)) !![(1:ℚ)]) !![(1:ℚ)])) /
        Matrix.trace ((grad_J ((fun _ => (0 : Matrix (Fin 1) (Fin 1) ℚ)) !![(1:ℚ)])
              (cayley_W (fun _ => 0) ⟨!![(1:ℚ)], 1/100⟩) -
            grad_J ((fun _ => (0 : Matrix (Fin 1) (Fin 1) ℚ)) !![(1:ℚ)]) !![(1:ℚ)])ᵀ *
          (grad_J ((fun _ => (0 : Matrix (Fin 1) (Fin 1) ℚ)) !![(1:ℚ)])
              (cayley_W (fun _ => 0) ⟨!![(1:ℚ)], 1/100⟩) -
            grad_J ((fun _ => (0 : Matrix (Fin 1) (Fin 1) ℚ)) !![(1:ℚ)]) !![(1:ℚ)]))| := by
  have hnb : (loop_body (fun _ => (0:ℚ))
      (plain_upd (fun _ => (0 : Matrix (Fin 1) (Fin 1) ℚ)))
      0 ⟨!![(1:ℚ)], 1/100, []⟩).2 = false := by
    simp only [loop_body]
    rw [if_neg]
    rintro ⟨-, h, -⟩
    exact absurd h (lt_irrefl 0)
  exact ⟨hnb, C2_amended_single_gradient (fun _ => (0:ℚ)) (fun _ => 0) 0
    ⟨!![(1:ℚ)], 1/100, []⟩ hnb⟩

/-- C3 counterexample: a numerical failure does not abort the solve.  At
`n = d = m = K = 1` with the zero gradient oracle, the step-size denominator
`trace(Y_itᵀ Y_it)` of iteration 0 is exactly `0` (an undefined
Barzilai-Borwein ratio), yet the plain solve with `maxiter = 2` executes
its second iteration and returns normally: a full 2-entry trace and the
(unchanged) `W` — no error is surfaced to the caller. -/
theorem C3_counterexample_no_abort :
    bb_denom (fun _ => (0 : Matrix (Fin 1) (Fin 1) ℚ)) ⟨!![(1:ℚ)], 1/100⟩ = 0 ∧
    (ESH_manifold (fun Zm => Zm) (fun _ => 0) !![(1:ℚ)] !![(1:ℚ)]
      (some 1) (1/100) 2 !![(1:ℚ)]).2.length = 2 ∧
    (ESH_manifold (fun Zm => Zm) (fun _ => 0) !![(1:ℚ)] !![(1:ℚ)]
      (some 1) (1/100) 2 !![(1:ℚ)]).1 = !![(1:ℚ)] := by
  refine ⟨?_, ?_, ?_⟩
  · simp [bb_denom, grad_J]
  · show (solver_loop
        (fun W' => cost_fn !![(1:ℚ)] W'
          (get_feature_affinity (fun Zm => Zm) !![(1:ℚ)] !![(1:ℚ)]) 1)
        (plain_upd (fun _ => 0)) 0 2 ⟨!![(1:ℚ)], 1/100, []⟩).costs.length = 2
    rw [solver_loop_zero_grad_two]
    rfl
  · show (solver_loop
        (fun W' => cost_fn !![(1:ℚ)] W'
          (get_feature_affinity (fun Zm => Zm) !![(1:ℚ)] !![(1:ℚ)]) 1)
        (plain_upd (fun _ => 0)) 0 2 ⟨!![(1:ℚ)], 1/100, []⟩).W = !![(1:ℚ)]
    rw [solver_loop_zero_grad_two]

/-- C3 amended: the plain solver performs no numerical-failure detection.
When the step-size denominator `trace(Y_itᵀ Y_it)` is zero at a
non-breaking iteration, the iteration completes with the exact-arithmetic
convention value `lr = |x/0| = 0` substituted (float arithmetic would carry
NaN/Inf) and the loop simply continues with the next iteration; the solver
has no error result and always returns `(W, trace)` normally. -/
theorem C3_amended_no_failure_detection {d K : ℕ}
    (cf : Matrix (Fin d) (Fin K) ℚ → ℚ)
    (g : Matrix (Fin d) (Fin K) ℚ → Matrix (Fin d) (Fin K) ℚ)
    (fuel it : ℕ) (s : LoopState d K)
    (hden : bb_denom g ⟨s.W, s.lr⟩ = 0)
    (hnb : (loop_body cf (plain_upd g) it s).2 = false) :
    solver_loop cf (plain_upd g) it (fuel + 1) s =
      solver_loop cf (plain_upd g) (it + 1) fuel
        ((loop_body cf (plain_upd g) it s).1) ∧
    ((loop_body cf (plain_upd g) it s).1).lr = 0 := by
  constructor
  · show (match loop_body cf (plain_upd g) it s with
      | (s', true) => s'
      | (s', false) => solver_loop cf (plain_upd g) (it + 1) fuel s') = _
    rcases hb : loop_body cf (plain_upd g) it s with ⟨s', b⟩
    rw [hb] at hnb
    cases b
    · rfl
    · exact absurd hnb (by simp)
  · by_cases hC : (it % 10 = 0 ∧ 0 < it ∧
        |(cf s.W - s.costs.getD (it - 10) 0) / s.costs.getD (it - 10) 0| < 1/10000)
    · exfalso
      simp only [loop_body, if_pos hC] at hnb
      exact absurd hnb (by simp)
    · simp only [loop_body, if_neg hC]
      show (plain_upd g ⟨s.W, s.lr⟩).lr = 0
      show bb_lr g ⟨s.W, s.lr⟩ = 0
      rw [bb_lr, hden, div_zero, abs_zero]

/-- Witness for C3's amended claim at `d = K = 1`, zero gradient oracle,
iteration 0 of a fresh state: the denominator is zero, the iteration does
not break, the loop continues and the new step size is `0`. -/
theorem C3_amended_no_failure_detection_witness :
    bb_denom (fun _ => (0 : Matrix (Fin 1) (Fin 1) ℚ)) ⟨!![(1:ℚ)], 1/100⟩ = 0 ∧
    ((loop_body (fun _ => (0:ℚ)) (plain_upd (fun _ => (0 : Matrix (Fin 1) (Fin 1) ℚ)))
      0 ⟨!![(1:ℚ)], 1/100, []⟩).2 = false) ∧
    (solver_loop (fun _ => (0:ℚ)) (plain_upd (fun _ => (0 : Matrix (Fin 1) (Fin 1) ℚ)))
        0 (1 + 1) ⟨!![(1:ℚ)], 1/100, []⟩ =
      solver_loop (fun _ => (0:ℚ)) (plain_upd (fun _ => (0 : Matrix (Fin 1) (Fin 1) ℚ)))
        (0 + 1) 1
        ((loop_body (fun _ => (0:ℚ)) (plain_upd (fun _ => (0 : Matrix (Fin 1) (Fin 1) ℚ)))
          0 ⟨!![(1:ℚ)], 1/100, []⟩).1) ∧
      ((loop_body (fun _ => (0:ℚ)) (plain_upd (fun _ => (0 : Matrix (Fin 1) (Fin 1) ℚ)))
        0 ⟨!![(1:ℚ)], 1/100, []⟩).1).lr = 0) := by
  have hden : bb_denom (fun _ => (0 : Matrix (Fin 1) (Fin 1) ℚ)) ⟨!![(1:ℚ)], 1/100⟩ = 0 := by
    simp [bb_denom, grad_J]
  have hnb : (loop_body (fun _ => (0:ℚ))
      (plain_upd (fun _ => (0 : Matrix (Fin 1) (Fin 1) ℚ)))
      0 ⟨!![(1:ℚ)], 1/100, []⟩).2 = false := by
    simp only [loop_body]
    rw [if_neg]
    rintro ⟨-, h, -⟩
    exact absurd h (lt_irrefl 0)
  exact ⟨hden, hnb,
    C3_amended_no_failure_detection (fun _ => (0:ℚ)) (fun _ => 0) 1 0
      ⟨!![(1:ℚ)], 1/100, []⟩ hden hnb⟩

/-- C8: the generalized solver initializes with `M = XᵀX/n + 0.01·I`
(`gen_M`) and `W = eigvecs / sqrt(eigvals)` (`init_W_gen`, column-wise
rescale); assuming exact orthonormal eigenvectors `V` of the top-`K`
eigenpairs (`VᵀV = I`, `M V = V diag(λ)`) with exact positive square roots
`sc j` of the eigenvalues, the initial `W` satisfies `Wᵀ M W = I_K`:
orthonormality in the `M`-metric. -/
theorem C8_generalized_init_M_orthonormal {n d K : ℕ}
    (X : Matrix (Fin n) (Fin d) ℚ) (V : Matrix (Fin d) (Fin K) ℚ)
    (lam : Fin K → ℚ) (sc : Fin K → ℚ)
    (hVV : Vᵀ * V = 1)
    (hMV : gen_M X * V = V * Matrix.diagonal lam)
    (hsq : ∀ j, sc j ^ 2 = lam j)
    (hpos : ∀ j, 0 < sc j) :
    (init_W_gen V sc)ᵀ * (gen_M X * init_W_gen V sc) = 1 := by
  have hW : init_W_gen V sc = V * Matrix.diagonal (fun j => (sc j)⁻¹) := by
    ext i j
    simp [init_W_gen, Matrix.mul_diagonal, div_eq_mul_inv]
  rw [hW, ← Matrix.mul_assoc (gen_M X) V _, hMV,
    Matrix.transpose_mul, Matrix.diagonal_transpose]
  simp only [Matrix.mul_assoc]
  rw [← Matrix.mul_assoc Vᵀ V _, hVV, Matrix.one_mul,
    Matrix.diagonal_mul_diagonal, Matrix.diagonal_mul_diagonal]
  have hf : (fun i => (sc i)⁻¹ * (lam i * (sc i)⁻¹)) = fun _ => (1 : ℚ) := by
    funext j
    have hne : sc j ≠ 0 := ne_of_gt (hpos j)
    rw [← hsq j]
    field_simp
    ring
  rw [hf, Matrix.diagonal_one]

/-- Witness for C8 at `n = d = K = 1`, `X = [[0]]`: `gen_M X = [[1/100]]`,
`V = [[1]]`, eigenvalue `1/100` with square root `1/10`. -/
theorem C8_generalized_init_M_orthonormal_witness :
    ((!![1] : Matrix (Fin 1) (Fin 1) ℚ)ᵀ * !![1] = 1 ∧
      gen_M (!![0] : Matrix (Fin 1) (Fin 1) ℚ) * !![1] =
        !![1] * Matrix.diagonal (fun _ : Fin 1 => (1/100 : ℚ)) ∧
      (∀ j : Fin 1, ((fun _ : Fin 1 => (1/10 : ℚ)) j) ^ 2 =
        (fun _ : Fin 1 => (1/100 : ℚ)) j) ∧
      (∀ j : Fin 1, 0 < (fun _ : Fin 1 => (1/10 : ℚ)) j)) ∧
    (init_W_gen (!![1] : Matrix (Fin 1) (Fin 1) ℚ) (fun _ => (1/10 : ℚ)))ᵀ *
      (gen_M (!![0] : Matrix (Fin 1) (Fin 1) ℚ) *
        init_W_gen (!![1] : Matrix (Fin 1) (Fin 1) ℚ) (fun _ => (1/10 : ℚ))) = 1 := by
  have hVV : (!![1] : Matrix (Fin 1) (Fin 1) ℚ)ᵀ * !![1] = 1 := by
    ext i j
    fin_cases i
    fin_cases j
    simp [Matrix.mul_apply]
  have hMV : gen_M (!![0] : Matrix (Fin 1) (Fin 1) ℚ) * !![1] =
      !![1] * Matrix.diagonal (fun _ : Fin 1 => (1/100 : ℚ)) := by
    ext i j
    fin_cases i
    fin_cases j
    simp [gen_M, Matrix.mul_apply, Matrix.one_apply]
  have hsq : ∀ j : Fin 1, ((fun _ : Fin 1 => (1/10 : ℚ)) j) ^ 2 =
      (fun _ : Fin 1 => (1/100 : ℚ)) j := fun _ => by norm_num
  have hpos : ∀ j : Fin 1, 0 < (fun _ : Fin 1 => (1/10 : ℚ)) j := fun _ => by norm_num
  exact ⟨⟨hVV, hMV, hsq, hpos⟩,
    C8_generalized_init_M_orthonormal !![0] !![1] (fun _ => 1/100) (fun _ => 1/10)
      hVV hMV hsq hpos⟩

/-- C7: in the generalized solver the step size is never updated — after any
number of iterations of the generalized loop (at the generalized solver's
cost function, or indeed any cost function), `lr` still equals the
caller-supplied initial value. -/
theorem C7_generalized_lr_never_updated {d K : ℕ}
    (cf : Matrix (Fin d) (Fin K) ℚ → ℚ)
    (g : Matrix (Fin d) (Fin K) ℚ → Matrix (Fin d) (Fin K) ℚ)
    (M : Matrix (Fin d) (Fin d) ℚ) (fuel it : ℕ) (s : LoopState d K) :
    (solver_loop cf (gen_upd g M) it fuel s).lr = s.lr :=
  solver_loop_lr_fixed cf (gen_upd g M) (fun _ => rfl) fuel it s

end ESH
